import Mathlib

/-!
Verification of the retrieval-augmented context pipeline of the
`tayai-project` backend (`app/services/rag_service.py`,
`app/services/chat_service.py`, `app/core/prompts/context.py`).

Strings are modelled as `List Char` (Python `str` indexing/length is by
code point, which coincides with `List Char` length).  Relevance scores
are modelled as rationals.  The Pinecone vector store is modelled as a
list of records with upsert-replaces-by-id semantics, and the external
gateway calls made by an operation are recorded in an explicit trace so
that "makes no provider call" is a statement about the trace.
-/

namespace TayAI

abbrev Str := List Char

/-- Python `\s` / `str.strip` whitespace characters (ASCII fragment). -/
def pyWs (c : Char) : Bool :=
  c = ' ' || c = '\t' || c = '\n' || c = '\r' || c = '\x0b' || c = '\x0c'

/-- Python `str.strip()`: drop whitespace from both ends. -/
def strip (s : Str) : Str :=
  ((s.dropWhile pyWs).reverse.dropWhile pyWs).reverse

/-- `ChunkConfig` from `rag_service.py` (only `chunk_size` is ever read). -/
structure ChunkConfig where
  chunk_size : Nat := 500
  chunk_overlap : Nat := 50
  min_chunk_size : Nat := 100
deriving DecidableEq

def defaultChunkConfig : ChunkConfig := {}

/-- A small configured chunk size, used for concrete test inputs. -/
def smallChunkConfig : ChunkConfig :=
  { chunk_size := 10, chunk_overlap := 2, min_chunk_size := 5 }

theorem dropWhile_len_le (p : α → Bool) (l : List α) :
    (l.dropWhile p).length ≤ l.length := by
  induction l with
  | nil => simp
  | cons a l ih =>
    rw [List.dropWhile_cons]
    split
    · exact Nat.le_trans ih (Nat.le_succ _)
    · simp

/-- `re.split(r'\n\n+', content)`: fields separated by maximal runs of
two or more newlines (greedy leftmost match).  One-character state
machine: `acc` is the current field reversed, `inDelim` records that we
are inside a newline run that already matched (greedily consuming the
rest of the run). -/
def splitParasGo (s acc : Str) (inDelim : Bool) : List Str :=
  match s, inDelim with
  | [], _ => [acc.reverse]
  | c :: rest, true =>
    if c = '\n' then splitParasGo rest acc true
    else splitParasGo rest [c] false
  | c :: rest, false =>
    if c = '\n' ∧ rest.head? = some '\n' then
      acc.reverse :: splitParasGo rest [] true
    else splitParasGo rest (c :: acc) false

def splitParas (s : Str) : List Str := splitParasGo s [] false

def isPunct (c : Char) : Bool := c = '.' || c = '!' || c = '?'

/-- `re.split(r'(?<=[.!?])\s+', para)`: a delimiter is a maximal run of
whitespace immediately preceded by `.`, `!` or `?`; the punctuation
character stays with the preceding field.  Same state-machine shape as
`splitParasGo`; the lookbehind is the head of `acc`. -/
def splitSentGo (s acc : Str) (inDelim : Bool) : List Str :=
  match s, inDelim with
  | [], _ => [acc.reverse]
  | c :: rest, true =>
    if pyWs c then splitSentGo rest acc true
    else splitSentGo rest [c] false
  | c :: rest, false =>
    if pyWs c ∧ (acc.head?.elim false isPunct) then
      acc.reverse :: splitSentGo rest [] true
    else splitSentGo rest (c :: acc) false

def splitSent (s : Str) : List Str := splitSentGo s [] false

/-- Adjacent pair `a, b` is not a sentence boundary (`a` punctuation
followed by whitespace `b` is where `splitSent` cuts). -/
def okPair (a b : Char) : Bool := !(isPunct a && pyWs b)

/-- `noBreak s`: the sentence splitter cannot split `s` — no character
of `s` is a `.`/`!`/`?` immediately followed by whitespace.  This is
the formalisation of "a single semantic unit that cannot be split
further". -/
def noBreak : Str → Bool
  | [] => true
  | [_] => true
  | a :: b :: r => okPair a b && noBreak (b :: r)

/-- A chunk text satisfying the (amended) size invariant: within one
character of the configured chunk size (the joining space is not counted
by the accumulation guard), or a single semantic unit the sentence
splitter cannot split further. -/
def GoodChunk (cfg : ChunkConfig) (s : Str) : Prop :=
  s.length ≤ cfg.chunk_size + 1 ∨ noBreak s = true

/-- One step of the sentence-accumulation loop in
`RAGService._split_by_paragraphs` (state: chunks so far, running buffer). -/
def sentStep (cfg : ChunkConfig) (st : List Str × Str) (sentence : Str) :
    List Str × Str :=
  if st.2.length + sentence.length ≤ cfg.chunk_size then
    (st.1, st.2 ++ (if st.2.isEmpty then [] else [' ']) ++ sentence)
  else
    if st.2.isEmpty then (st.1, sentence) else (st.1 ++ [st.2], sentence)

/-- One step of the paragraph loop in `RAGService._split_by_paragraphs`. -/
def paraStep (cfg : ChunkConfig) (st : List Str × Str) (para0 : Str) :
    List Str × Str :=
  let para := strip para0
  if para.isEmpty then st
  else if cfg.chunk_size < para.length then
    let st1 := if st.2.isEmpty then st else (st.1 ++ [st.2], [])
    (splitSent para).foldl (sentStep cfg) st1
  else
    if st.2.length + para.length + 2 ≤ cfg.chunk_size then
      (st.1, st.2 ++ (if st.2.isEmpty then [] else ['\n', '\n']) ++ para)
    else
      if st.2.isEmpty then (st.1, para) else (st.1 ++ [st.2], para)

/-- `RAGService._split_by_paragraphs`. -/
def splitByParagraphs (cfg : ChunkConfig) (content : Str) : List Str :=
  let st := (splitParas content).foldl (paraStep cfg) ([], [])
  if st.2.isEmpty then st.1 else st.1 ++ [st.2]

/-- A produced chunk (dict `{"text", "index", "total_chunks"}`). -/
structure Chunk where
  text : Str
  index : Nat
  total_chunks : Nat
deriving DecidableEq

/-- The enumerate loop of `RAGService._chunk_content`: strip each raw
chunk and prepend the title (plus a blank line) to the chunk at index 0
when a title is given. -/
def withTitle (title : Str) (total : Nat) : Nat → List Str → List Chunk
  | _, [] => []
  | i, t :: rest =>
    let ct := strip t
    let ct := if i = 0 ∧ ¬ title.isEmpty then title ++ '\n' :: '\n' :: ct else ct
    ⟨ct, i, total⟩ :: withTitle title total (i + 1) rest

/-- `RAGService._chunk_content`. -/
def chunkContent (cfg : ChunkConfig) (content title : Str) : List Chunk :=
  let content := strip content
  if content.isEmpty then []
  else if content.length ≤ cfg.chunk_size then [⟨content, 0, 1⟩]
  else
    let raw := splitByParagraphs cfg content
    withTitle title raw.length 0 raw

/-! ## Context classifier (`app/core/prompts/context.py`) -/

/-- `ConversationContext` enum. -/
inductive CC
  | hair_education
  | business_mentorship
  | product_recommendation
  | troubleshooting
  | general
deriving DecidableEq

def hairKeywords : List Str :=
  ["hair", "curl", "braid", "style", "texture", "moisture", "protein",
   "wash", "condition", "detangle", "protective", "natural", "relaxed",
   "extension", "wig", "loc", "twist", "coil", "strand", "scalp",
   "growth"].map String.toList

def businessKeywords : List Str :=
  ["business", "client", "price", "pricing", "marketing", "social media",
   "instagram", "booking", "salon", "brand", "money", "income", "profit",
   "customer", "service", "charge", "start", "grow", "scale",
   "invest"].map String.toList

def productKeywords : List Str :=
  ["product", "recommend", "buy", "purchase", "ingredient", "shampoo",
   "conditioner", "oil", "cream", "gel", "spray", "serum", "mask",
   "treatment"].map String.toList

def troubleshootingKeywords : List Str :=
  ["problem", "issue", "help", "wrong", "damage", "break", "dry",
   "brittle", "falling", "thinning", "not working", "failed", "mistake",
   "fix", "repair"].map String.toList

def keywordsOf : CC → List Str
  | .hair_education => hairKeywords
  | .business_mentorship => businessKeywords
  | .product_recommendation => productKeywords
  | .troubleshooting => troubleshootingKeywords
  | .general => []

/-- `sum(1 for kw in keywords if kw in message_lower)`. -/
def keywordScore (msg : Str) (kws : List Str) : Nat :=
  (kws.filter (fun kw => decide (kw <:+: msg))).length

/-- `detect_conversation_context`: case-fold, score each non-general
topic by keyword substring hits, return `general` when the maximum is
zero, otherwise the first topic in the priority order
troubleshooting > product-recommendation > business-mentorship >
hair-education whose score equals the maximum. -/
def detectConversationContext (message : Str) : CC :=
  let m := message.map Char.toLower
  let sHair := keywordScore m hairKeywords
  let sBiz := keywordScore m businessKeywords
  let sProd := keywordScore m productKeywords
  let sTrouble := keywordScore m troubleshootingKeywords
  let maxScore := max (max sHair sBiz) (max sProd sTrouble)
  if maxScore = 0 then .general
  else if sTrouble = maxScore then .troubleshooting
  else if sProd = maxScore then .product_recommendation
  else if sBiz = maxScore then .business_mentorship
  else if sHair = maxScore then .hair_education
  else .general

/-- Modelled from the spec's words (§4.6), for comparison with
`detectConversationContext`: compute per-topic keyword counts, take the
maximum, return `general` when it is zero, otherwise the first topic of
the fixed priority list whose count equals the maximum. -/
def specClassify (message : Str) : CC :=
  let m := message.map Char.toLower
  let score := fun c => keywordScore m (keywordsOf c)
  let candidates : List CC :=
    [.hair_education, .business_mentorship, .product_recommendation,
     .troubleshooting]
  let priority : List CC :=
    [.troubleshooting, .product_recommendation, .business_mentorship,
     .hair_education]
  let maxScore := (candidates.map score).foldr max 0
  if maxScore = 0 then .general
  else
    match priority.find? (fun c => score c == maxScore) with
    | some c => c
    | none => .general

/-! ## Context retriever (`RAGService.retrieve_context`) -/

/-- A Pinecone record metadata dict, restricted to the keys the
retriever reads (`None` models an absent key). -/
structure MetaD where
  title : Option Str
  category : Option Str
  content : Option Str
deriving DecidableEq

/-- One match returned by `index.query`. -/
structure PineMatch where
  id : Str
  score : ℚ
  metadata : MetaD
deriving DecidableEq

/-- `RetrievalResult` dataclass. -/
structure RetrievalResult where
  content : Str
  score : ℚ
  metadata : MetaD
  chunk_id : Str
deriving DecidableEq

/-- Source-summary dict built for `ContextResult.sources`. -/
structure SourceInfo where
  title : Str
  category : Str
  score : ℚ
  chunk_id : Str
deriving DecidableEq

/-- `ContextResult` dataclass. -/
structure ContextResult where
  context : Str
  sources : List SourceInfo
  total_matches : Nat
  average_score : ℚ
deriving DecidableEq

/-- Return type of `retrieve_context`: a plain string or a
`ContextResult`, depending on `include_sources`. -/
inductive RetOut
  | str (s : Str)
  | bundle (b : ContextResult)
deriving DecidableEq

/-- Python `round(q, 3)` on the exact rational value
(round half to even, as Python's `round`). -/
def pyRound3 (q : ℚ) : ℚ :=
  let x := q * 1000
  let f : ℤ := ⌊x⌋
  let r := x - f
  (if r < 1 / 2 then f
   else if 1 / 2 < r then f + 1
   else if f % 2 = 0 then f else f + 1) / 1000

def toRR (m : PineMatch) : RetrievalResult :=
  ⟨m.metadata.content.getD [], m.score, m.metadata, m.id⟩

/-- `RAGService._format_context`. -/
def formatContext (r : RetrievalResult) : Str :=
  let title := r.metadata.title.getD []
  let category := r.metadata.category.getD []
  let header :=
    if title.isEmpty then []
    else
      ("**".toList ++ title ++ "**".toList)
        ++ (if category.isEmpty then [] else " (".toList ++ category ++ ")".toList)
        ++ ['\n']
  header ++ r.content

def mkSource (r : RetrievalResult) : SourceInfo :=
  ⟨r.metadata.title.getD "Unknown".toList, r.metadata.category.getD [],
   pyRound3 r.score, r.chunk_id⟩

def contextSep : Str := "\n\n---\n\n".toList

def emptyRetOut (include_sources : Bool) : RetOut :=
  if include_sources then .bundle ⟨[], [], 0, 0⟩ else .str []

/-- `RAGService.retrieve_context`.  The embedding call and the vector
query are the two fallible provider calls inside the `try` block; they
are passed in as `Except` values (`.error` models a raised provider
exception, caught by the surrounding handler). -/
def retrieveContext (embedRes : Except Unit (List ℚ))
    (query : List ℚ → Except Unit (List PineMatch))
    (score_threshold : ℚ) (include_sources : Bool) : RetOut :=
  match embedRes with
  | .error _ => emptyRetOut include_sources
  | .ok emb =>
    match query emb with
    | .error _ => emptyRetOut include_sources
    | .ok results =>
      let survivors :=
        (results.filter (fun m => score_threshold ≤ m.score)).map toRR
      if survivors.isEmpty then emptyRetOut include_sources
      else
        let context := List.intercalate contextSep (survivors.map formatContext)
        let avg := (survivors.map (·.score)).sum / survivors.length
        let sources := survivors.map mkSource
        if include_sources then
          .bundle ⟨context, sources, survivors.length, pyRound3 avg⟩
        else .str context

/-! ## Content indexer (`RAGService.index_content` / `delete_content` /
`update_content`) over a model of the Pinecone vector store. -/

/-- Caller-supplied metadata dict, restricted to the keys the indexer
reads (`title`) plus an opaque remainder. -/
structure CallerMeta where
  title : Option Str
  category : Option Str
  extra : List (Str × Str)
deriving DecidableEq

/-- Metadata stored on an upserted vector: the caller metadata merged
with the keys the indexer adds (`content`, and for chunked records
`chunk_index`, `total_chunks`, `parent_id`). -/
structure VMeta where
  caller : CallerMeta
  content : Str
  chunk_index : Option Nat
  total_chunks : Option Nat
  parent_id : Option Str
deriving DecidableEq

/-- A vector record in the Pinecone index. -/
structure VRecord where
  id : Str
  values : List ℚ
  meta : VMeta
deriving DecidableEq

/-- A call to an external gateway, recorded in an operation's trace. -/
inductive GatewayCall
  | embedBatch (texts : List Str)
  | embedSingle (text : Str)
  | upsertCall (vectors : List VRecord)
  | deleteFilterParent (parentId : Str)
  | deleteIds (ids : List Str)
deriving DecidableEq

/-- Pinecone upsert of a single record: replaces any record with the
same id. -/
def upsertOne (store : List VRecord) (v : VRecord) : List VRecord :=
  v :: store.filter (fun r => r.id ≠ v.id)

/-- Pinecone upsert of a batch of records. -/
def upsertMany (store : List VRecord) (vs : List VRecord) : List VRecord :=
  vs.foldl upsertOne store

/-- `vectors[i:i+100]` slices of the paged upsert loop, with an explicit
fuel argument to keep the recursion structural; the fuel is always at
least the list length, so the `0, _ :: _` arm is dead. -/
def batchesGo (fuel : Nat) (l : List α) : List (List α) :=
  match fuel, l with
  | _, [] => []
  | 0, _ :: _ => []
  | fuel + 1, a :: t => (a :: t).take 100 :: batchesGo fuel ((a :: t).drop 100)

def batches100 (l : List α) : List (List α) := batchesGo l.length l

/-- `f"{content_id}_chunk_{i}"`. -/
def chunkId (contentId : Str) (i : Nat) : Str :=
  contentId ++ "_chunk_".toList ++ Nat.toDigits 10 i

/-- The vector built for chunk `i` in `RAGService._index_chunked`. -/
def mkVector (embf : Str → List ℚ) (meta : CallerMeta) (contentId : Str)
    (total : Nat) (i : Nat) (text : Str) : VRecord :=
  { id := chunkId contentId i
    values := embf text
    meta := { caller := meta, content := text, chunk_index := some i,
              total_chunks := some total, parent_id := some contentId } }

/-- The `enumerate(zip(chunks, embeddings))` loop building the vectors. -/
def mkVectors (embf : Str → List ℚ) (meta : CallerMeta) (contentId : Str)
    (total : Nat) : Nat → List Str → List VRecord
  | _, [] => []
  | i, t :: ts =>
    mkVector embf meta contentId total i t
      :: mkVectors embf meta contentId total (i + 1) ts

/-- Result of an indexing operation: the new store state, the
`(success, chunk_ids)` return value, and the trace of gateway calls. -/
structure IndexResult where
  store : List VRecord
  ok : Bool
  ids : List Str
  calls : List GatewayCall
deriving DecidableEq

/-- `RAGService._index_chunked` (the embedding provider is modelled by
the order-preserving per-text function `embf`). -/
def indexChunked (cfg : ChunkConfig) (embf : Str → List ℚ)
    (store : List VRecord) (content : Str) (meta : CallerMeta)
    (contentId : Str) : IndexResult :=
  let chunks := chunkContent cfg content (meta.title.getD [])
  if chunks.isEmpty then ⟨store, false, [], []⟩
  else
    let texts := chunks.map (·.text)
    let vectors := mkVectors embf meta contentId chunks.length 0 texts
    let bs := batches100 vectors
    ⟨bs.foldl upsertMany store, true, vectors.map (·.id),
     .embedBatch texts :: bs.map .upsertCall⟩

/-- `RAGService._index_single`. -/
def indexSingle (embf : Str → List ℚ) (store : List VRecord)
    (content : Str) (meta : CallerMeta) (contentId : Str) : IndexResult :=
  let v : VRecord :=
    { id := contentId, values := embf content,
      meta := { caller := meta, content := content, chunk_index := none,
                total_chunks := none, parent_id := none } }
  ⟨upsertOne store v, true, [contentId],
   [.embedSingle content, .upsertCall [v]]⟩

/-- `RAGService.index_content`. -/
def indexContent (cfg : ChunkConfig) (embf : Str → List ℚ)
    (store : List VRecord) (content : Str) (meta : CallerMeta)
    (contentId : Str) (chunk_content : Bool) : IndexResult :=
  if chunk_content then indexChunked cfg embf store content meta contentId
  else indexSingle embf store content meta contentId

/-- `RAGService.delete_content`: a metadata-filter delete for
`parent_id == content_id` followed by an id delete for `content_id`.
`fail := true` models a provider exception caught by the handler (the
store is then left in its prior state and `False` is returned). -/
def deleteContent (store : List VRecord) (contentId : Str) (fail : Bool) :
    (List VRecord × Bool × List GatewayCall) :=
  if fail then (store, false, [])
  else
    let s1 := store.filter (fun r => ¬ r.meta.parent_id = some contentId)
    let s2 := s1.filter (fun r => r.id ≠ contentId)
    (s2, true, [.deleteFilterParent contentId, .deleteIds [contentId]])

/-- `RAGService.update_content`: delete (result discarded), then
re-index with `chunk_content=True`; returns the re-index success flag. -/
def updateContent (cfg : ChunkConfig) (embf : Str → List ℚ)
    (store : List VRecord) (content : Str) (meta : CallerMeta)
    (contentId : Str) (deleteFail : Bool) : List VRecord × Bool :=
  let d := deleteContent store contentId deleteFail
  let r := indexContent cfg embf d.1 content meta contentId true
  (r.store, r.ok)

/-- The vectors passed to the vector-index gateway across all upsert
calls of a trace, in order. -/
def upsertedVectors (calls : List GatewayCall) : List VRecord :=
  (calls.filterMap
    (fun c => match c with
      | .upsertCall vs => some vs
      | _ => none)).flatten

/-! ## Chat message assembly (`ChatService._build_messages`) -/

/-- A `{role, content}` message for the completion provider. -/
structure Msg where
  role : Str
  content : Str
deriving DecidableEq

/-- A conversation-history entry as Python sees it: either not a dict at
all, or a dict with optional `role` / `content` values (`none` models an
absent key; non-string `content` values never reach a key the builder
inspects beyond presence, so string payloads suffice). -/
inductive HEntry
  | notDict
  | dict (role : Option Str) (content : Option Str)
deriving DecidableEq

/-- `ChatService._is_valid_message`. -/
def isValidMessage : HEntry → Bool
  | .notDict => false
  | .dict r c =>
    (match r with
     | some s =>
        s = "user".toList || s = "assistant".toList || s = "system".toList
     | none => false) && c.isSome

/-- `{"role": msg["role"], "content": msg["content"]}` (only applied to
entries that passed `isValidMessage`, so the defaults are dead). -/
def toMsg : HEntry → Msg
  | .dict (some r) (some c) => ⟨r, c⟩
  | _ => ⟨[], []⟩

/-- `ChatService.MAX_HISTORY`. -/
def MAX_HISTORY : Nat := 10

/-- Python `l[-n:]`. -/
def lastN (n : Nat) (l : List α) : List α := l.drop (l.length - n)

/-- `ChatService._build_messages`; `sysPrompt` models
`get_system_prompt` and `ctxInj` models `get_context_injection_prompt`
(pure functions supplied by the prompts module). -/
def buildMessages (sysPrompt : CC → Str) (ctxInj : Str → Str → Str)
    (userMessage context : Str) (history : Option (List HEntry))
    (contextType : CC) : List Msg :=
  let ms : List Msg := [⟨"system".toList, sysPrompt contextType⟩]
  let ms :=
    if context.isEmpty then ms
    else ms ++ [⟨"system".toList, ctxInj context userMessage⟩]
  let ms :=
    match history with
    | none => ms
    | some h =>
      ms ++ ((lastN MAX_HISTORY h).filter isValidMessage).map toMsg
  ms ++ [⟨"user".toList, userMessage⟩]

/-! ## Claims -/

theorem getLast_cons_concat (x a : α) (l : List α) :
    (x :: (l ++ [a])).getLast? = some a := by
  rw [← List.cons_append, List.getLast?_concat]

theorem isEmpty_map_eq (f : α → β) (l : List α) :
    (l.map f).isEmpty = l.isEmpty := by
  cases l <;> rfl

theorem eq_nil_of_isEmpty {l : List α} (h : l.isEmpty = true) : l = [] := by
  cases l <;> simp_all

theorem mem_withTitle {title : Str} {total i : Nat} {l : List Str} {c : Chunk}
    (hc : c ∈ withTitle title total i l) :
    ∃ j, j < l.length ∧ c.index = i + j ∧ c.total_chunks = total ∧
      c.text = (if c.index = 0 ∧ ¬title.isEmpty
                then title ++ '\n' :: '\n' :: strip (l.getD j [])
                else strip (l.getD j [])) := by
  induction l generalizing i with
  | nil => cases hc
  | cons t rest ih =>
    simp only [withTitle, List.mem_cons] at hc
    rcases hc with hc | hc
    · refine ⟨0, by simp, ?_⟩
      subst hc
      simp
    · obtain ⟨j, hj, hidx, htot, htext⟩ := ih hc
      exact ⟨j + 1, by simpa using hj, by omega, htot, htext⟩

/-- C6 counterexample: with chunk_size 10, content "aaaa. bbbbb" (11
characters, one paragraph) takes the multi-chunk path but yields exactly
ONE chunk, and the title IS prepended to it — refuting the claim that a
single-chunk result never contains the injected title. -/
theorem C6_counterexample :
    (chunkContent smallChunkConfig "aaaa. bbbbb".toList "T".toList).length = 1
    ∧ chunkContent smallChunkConfig "aaaa. bbbbb".toList "T".toList
        = [⟨"T\n\naaaa. bbbbb".toList, 0, 1⟩]
    ∧ "T\n\n".toList <+: "T\n\naaaa. bbbbb".toList := by
  refine ⟨by decide, by decide, by decide⟩

/-- C6 (amended): the chunker prepends the title to the chunk at index 0
exactly when the title is non-empty and the stripped content is longer
than chunk_size (the chunked path), regardless of how many chunks that
path yields; when the stripped content fits in chunk_size, every
produced chunk is exactly the stripped content with no title injected. -/
theorem C6_amended (cfg : ChunkConfig) (content title : Str)
    (h : ¬ title.isEmpty) :
    ((strip content).length ≤ cfg.chunk_size →
      ∀ c ∈ chunkContent cfg content title, c.text = strip content) ∧
    (cfg.chunk_size < (strip content).length →
      ∀ c ∈ chunkContent cfg content title,
        c.text =
          if c.index = 0 then
            title ++ '\n' :: '\n'
              :: strip ((splitByParagraphs cfg (strip content)).getD c.index [])
          else strip ((splitByParagraphs cfg (strip content)).getD c.index [])) := by
  constructor
  · intro hlen c hc
    by_cases he : (strip content).isEmpty
    · simp [chunkContent, he] at hc
    · simp only [chunkContent, he, if_false, if_pos hlen, Bool.false_eq_true,
        List.mem_singleton] at hc
      subst hc
      rfl
  · intro hlen c hc
    have he : (strip content).isEmpty = false := by
      cases hs : strip content with
      | nil => exact absurd hlen (by rw [hs]; simp)
      | cons a t => rfl
    simp only [chunkContent, he, Bool.false_eq_true, if_false,
      if_neg (Nat.not_le.mpr hlen)] at hc
    obtain ⟨j, hj, hidx, htot, htext⟩ := mem_withTitle hc
    rw [htext]
    simp only [Nat.zero_add] at hidx
    subst hidx
    by_cases h0 : c.index = 0 <;> simp [h0, h]

theorem C6_amended_witness :
    ¬("T".toList.isEmpty = true) ∧
    smallChunkConfig.chunk_size < (strip "aaaa. bbbbb".toList).length ∧
    (∀ c ∈ chunkContent smallChunkConfig "aaaa. bbbbb".toList "T".toList,
      c.text =
        if c.index = 0 then
          "T".toList ++ '\n' :: '\n'
            :: strip ((splitByParagraphs smallChunkConfig
                (strip "aaaa. bbbbb".toList)).getD c.index [])
        else
          strip ((splitByParagraphs smallChunkConfig
            (strip "aaaa. bbbbb".toList)).getD c.index [])) :=
  ⟨by decide, by decide,
   (C6_amended smallChunkConfig "aaaa. bbbbb".toList "T".toList
      (by decide)).2 (by decide)⟩

theorem flatten_batchesGo (fuel : Nat) (l : List α) (h : l.length ≤ fuel) :
    (batchesGo fuel l).flatten = l := by
  induction fuel generalizing l with
  | zero =>
    cases l with
    | nil => rfl
    | cons a t => simp at h
  | succ fuel ih =>
    cases l with
    | nil => rfl
    | cons a t =>
      simp only [batchesGo, List.flatten_cons]
      rw [ih ((a :: t).drop 100) (by simp at h ⊢; omega)]
      exact List.take_append_drop _ _

theorem flatten_batches100 (l : List α) : (batches100 l).flatten = l :=
  flatten_batchesGo l.length l (Nat.le_refl _)

theorem foldl_upsertMany_flatten (bs : List (List VRecord))
    (store : List VRecord) :
    bs.foldl upsertMany store = upsertMany store bs.flatten := by
  induction bs generalizing store with
  | nil => rfl
  | cons b bs ih =>
    simp only [List.foldl_cons, List.flatten_cons, ih, upsertMany,
      List.foldl_append]

theorem mem_upsertMany {r : VRecord} (st vs : List VRecord)
    (h : r ∈ upsertMany st vs) : r ∈ vs ∨ r ∈ st := by
  induction vs generalizing st with
  | nil => exact .inr h
  | cons v vs ih =>
    rcases ih _ h with hv | hv
    · exact .inl (List.mem_cons_of_mem _ hv)
    · rcases List.mem_cons.mp hv with hv | hv
      · exact .inl (hv ▸ List.mem_cons_self _ _)
      · exact .inr (List.mem_filter.mp hv).1

theorem mem_upsertMany_of_id {r : VRecord} (st vs : List VRecord)
    (h : r ∈ upsertMany st vs) (hid : r.id ∈ vs.map (·.id)) : r ∈ vs := by
  induction vs generalizing st with
  | nil => simp at hid
  | cons v vs ih =>
    by_cases h2 : r.id ∈ vs.map (·.id)
    · exact List.mem_cons_of_mem _ (ih _ h h2)
    · rcases mem_upsertMany (upsertOne st v) vs h with h3 | h3
      · exact List.mem_cons_of_mem _ h3
      · rcases List.mem_cons.mp h3 with h4 | h4
        · exact h4 ▸ List.mem_cons_self _ _
        · have hrv : r.id = v.id := by
            simp only [List.map_cons, List.mem_cons] at hid
            tauto
          have := (List.mem_filter.mp h4).2
          simp only [decide_eq_true_eq] at this
          exact absurd hrv this

theorem mem_upsertMany_of_notin {r : VRecord} (st vs : List VRecord)
    (h : r ∈ st) (hid : r.id ∉ vs.map (·.id)) : r ∈ upsertMany st vs := by
  induction vs generalizing st with
  | nil => exact h
  | cons v vs ih =>
    have h1 : r ∈ upsertOne st v := by
      refine List.mem_cons_of_mem _ (List.mem_filter.mpr ⟨h, ?_⟩)
      simp only [decide_eq_true_eq]
      intro he
      exact hid (by simp [he])
    exact ih _ h1 (fun hc => hid (List.mem_cons_of_mem _ hc))

theorem mem_ids_upsertOne (x : Str) (st : List VRecord) (v : VRecord) :
    x ∈ (upsertOne st v).map (·.id) ↔ x = v.id ∨ x ∈ st.map (·.id) := by
  simp only [upsertOne, List.map_cons, List.mem_cons, List.mem_map,
    List.mem_filter, decide_eq_true_eq]
  constructor
  · rintro (h | ⟨r, ⟨hr, _⟩, hrx⟩)
    · exact .inl h
    · exact .inr ⟨r, hr, hrx⟩
  · rintro (h | ⟨r, hr, hrx⟩)
    · exact .inl h
    · by_cases hx : x = v.id
      · exact .inl hx
      · exact .inr ⟨r, ⟨hr, fun hrv => hx (by rw [← hrx, hrv])⟩, hrx⟩

theorem mem_ids_upsertMany (x : Str) (st vs : List VRecord) :
    x ∈ (upsertMany st vs).map (·.id)
      ↔ x ∈ st.map (·.id) ∨ x ∈ vs.map (·.id) := by
  induction vs generalizing st with
  | nil => simp [upsertMany]
  | cons v vs ih =>
    rw [show upsertMany st (v :: vs) = upsertMany (upsertOne st v) vs from rfl,
      ih, mem_ids_upsertOne]
    simp only [List.map_cons, List.mem_cons]
    tauto

theorem mkVectors_map_id (embf : Str → List ℚ) (meta : CallerMeta)
    (cid : Str) (total : Nat) (ts : List Str) (i : Nat) :
    (mkVectors embf meta cid total i ts).map (·.id)
      = (List.range' i ts.length).map (chunkId cid) := by
  induction ts generalizing i with
  | nil => rfl
  | cons t ts ih =>
    rw [show mkVectors embf meta cid total i (t :: ts)
        = mkVector embf meta cid total i t
          :: mkVectors embf meta cid total (i + 1) ts from rfl,
      List.map_cons, ih, List.length_cons, List.range'_succ]
    rfl

theorem parent_of_mem_mkVectors {v : VRecord} (embf : Str → List ℚ)
    (meta : CallerMeta) (cid : Str) (total : Nat) (ts : List Str) (i : Nat)
    (h : v ∈ mkVectors embf meta cid total i ts) :
    v.meta.parent_id = some cid ∧ v.meta.caller = meta
      ∧ v.meta.total_chunks = some total := by
  induction ts generalizing i with
  | nil => cases h
  | cons t ts ih =>
    rcases List.mem_cons.mp h with h1 | h1
    · subst h1; exact ⟨rfl, rfl, rfl⟩
    · exact ih _ h1

theorem mkVectors_get? (embf : Str → List ℚ) (meta : CallerMeta) (cid : Str)
    (total : Nat) (ts : List Str) (i j : Nat) :
    (mkVectors embf meta cid total i ts).get? j
      = (ts.get? j).map (fun t => mkVector embf meta cid total (i + j) t) := by
  induction ts generalizing i j with
  | nil => cases j <;> rfl
  | cons t ts ih =>
    cases j with
    | zero => rfl
    | succ j =>
      rw [show (mkVectors embf meta cid total i (t :: ts)).get? (j + 1)
            = (mkVectors embf meta cid total (i + 1) ts).get? j from rfl,
        ih (i + 1) j, show i + 1 + j = i + (j + 1) from by omega]
      rfl

theorem upsertedVectors_calls (texts : List Str)
    (bs : List (List VRecord)) :
    upsertedVectors (.embedBatch texts :: bs.map .upsertCall) = bs.flatten := by
  simp [upsertedVectors, List.filterMap_cons, List.filterMap_map,
    Function.comp_def, List.filterMap_some]

/-- C1: a successful `index(content, metadata, content_id, chunk=true)`
producing N chunks upserts exactly the N vectors with ids
`{content_id}_chunk_0 .. _chunk_{N-1}`, each carrying the caller
metadata plus `content`, `chunk_index i`, `total_chunks N` and
`parent_id = content_id`; a subsequent `delete(content_id)` removes
every record with that parent_id and the bare id, so no record with the
bare id, a chunk id of this indexing, or that parent_id remains. -/
theorem C1_indexer_consistency (cfg : ChunkConfig) (embf : Str → List ℚ)
    (store : List VRecord) (content : Str) (meta : CallerMeta) (cid : Str)
    (h : ¬(chunkContent cfg content (meta.title.getD [])).isEmpty = true) :
    (indexContent cfg embf store content meta cid true).ok = true
    ∧ (indexContent cfg embf store content meta cid true).ids
        = (List.range (chunkContent cfg content (meta.title.getD [])).length).map
            (chunkId cid)
    ∧ upsertedVectors (indexContent cfg embf store content meta cid true).calls
        = mkVectors embf meta cid
            (chunkContent cfg content (meta.title.getD [])).length 0
            ((chunkContent cfg content (meta.title.getD [])).map (·.text))
    ∧ (∀ i : Nat,
        (mkVectors embf meta cid
            (chunkContent cfg content (meta.title.getD [])).length 0
            ((chunkContent cfg content (meta.title.getD [])).map (·.text))).get? i
          = (((chunkContent cfg content (meta.title.getD [])).map (·.text)).get? i).map
              (fun t => mkVector embf meta cid
                (chunkContent cfg content (meta.title.getD [])).length i t))
    ∧ (∀ v ∈ mkVectors embf meta cid
          (chunkContent cfg content (meta.title.getD [])).length 0
          ((chunkContent cfg content (meta.title.getD [])).map (·.text)),
        v.meta.parent_id = some cid ∧ v.meta.caller = meta
          ∧ v.meta.total_chunks
              = some (chunkContent cfg content (meta.title.getD [])).length)
    ∧ (∀ r ∈ (deleteContent
          (indexContent cfg embf store content meta cid true).store cid
          false).1,
        r.id ≠ cid ∧ ¬ r.meta.parent_id = some cid
          ∧ r.id ∉ (indexContent cfg embf store content meta cid true).ids) := by
  have hb : (chunkContent cfg content (meta.title.getD [])).isEmpty = false :=
    Bool.eq_false_iff.mpr h
  set C := chunkContent cfg content (meta.title.getD []) with hC
  set V := mkVectors embf meta cid C.length 0 (C.map (·.text)) with hV
  have hres : indexContent cfg embf store content meta cid true
      = ⟨(batches100 V).foldl upsertMany store, true, V.map (·.id),
          .embedBatch (C.map (·.text)) :: (batches100 V).map .upsertCall⟩ := by
    simp only [indexContent, if_true, indexChunked, hb, Bool.false_eq_true,
      if_false, ← hC, ← hV]
  have hstore : (indexContent cfg embf store content meta cid true).store
      = upsertMany store V := by
    rw [hres]
    exact (foldl_upsertMany_flatten _ _).trans
      (by rw [flatten_batches100])
  refine ⟨by rw [hres], ?_, ?_, ?_, ?_, ?_⟩
  · rw [hres]
    show V.map (·.id) = _
    rw [hV, mkVectors_map_id, List.length_map, List.range_eq_range']
  · rw [hres]
    show upsertedVectors (.embedBatch (C.map (·.text))
        :: (batches100 V).map .upsertCall) = V
    rw [upsertedVectors_calls, flatten_batches100]
  · intro i
    rw [hV, mkVectors_get?]
    simp
  · intro v hv
    exact parent_of_mem_mkVectors embf meta cid C.length (C.map (·.text)) 0 hv
  · intro r hr
    simp only [deleteContent, if_neg (by simp : ¬ false = true),
      Bool.false_eq_true, if_false] at hr
    have hr1 := List.mem_filter.mp hr
    have hr2 := List.mem_filter.mp hr1.1
    have hq : r.id ≠ cid := by simpa using hr1.2
    have hp : ¬ r.meta.parent_id = some cid := by simpa using hr2.2
    refine ⟨hq, hp, ?_⟩
    intro hmem
    rw [hres] at hmem
    have hrs : r ∈ upsertMany store V := by rw [← hstore]; exact hr2.1
    have : r ∈ V := mem_upsertMany_of_id store V hrs (by simpa using hmem)
    exact hp (parent_of_mem_mkVectors embf meta cid C.length
      (C.map (·.text)) 0 this).1

theorem C1_witness :
    ¬(chunkContent defaultChunkConfig "hello".toList
        ((⟨none, none, []⟩ : CallerMeta).title.getD [])).isEmpty = true ∧
    (indexContent defaultChunkConfig (fun _ => []) [] "hello".toList
        ⟨none, none, []⟩ "kb_1".toList true).ok = true :=
  ⟨by decide,
   (C1_indexer_consistency defaultChunkConfig (fun _ => []) []
      "hello".toList ⟨none, none, []⟩ "kb_1".toList (by decide)).1⟩

/-- C8: calling `update` twice in a row with identical arguments (both
succeeding) leaves the vector store with the same set of record ids
after each call. -/
theorem C8_update_idempotence (cfg : ChunkConfig) (embf : Str → List ℚ)
    (store : List VRecord) (content : Str) (meta : CallerMeta) (cid : Str)
    (h : ¬(chunkContent cfg content (meta.title.getD [])).isEmpty = true) :
    (updateContent cfg embf store content meta cid false).2 = true
    ∧ (updateContent cfg embf
        (updateContent cfg embf store content meta cid false).1 content meta
        cid false).2 = true
    ∧ (∀ x : Str,
        x ∈ (updateContent cfg embf store content meta cid false).1.map (·.id)
          ↔ x ∈ (updateContent cfg embf
              (updateContent cfg embf store content meta cid false).1 content
              meta cid false).1.map (·.id)) := by
  have hb : (chunkContent cfg content (meta.title.getD [])).isEmpty = false :=
    Bool.eq_false_iff.mpr h
  set C := chunkContent cfg content (meta.title.getD []) with hC
  set V := mkVectors embf meta cid C.length 0 (C.map (·.text)) with hV
  have hupd : ∀ st : List VRecord,
      updateContent cfg embf st content meta cid false
        = (upsertMany ((st.filter
              (fun r => ¬ r.meta.parent_id = some cid)).filter
                (fun r => r.id ≠ cid)) V, true) := by
    intro st
    simp only [updateContent, deleteContent, Bool.false_eq_true, if_false,
      indexContent, if_true, indexChunked, hb, ← hC, ← hV]
    rw [foldl_upsertMany_flatten, flatten_batches100]
  have hVparent : ∀ v ∈ V, v.meta.parent_id = some cid := fun v hv =>
    (parent_of_mem_mkVectors embf meta cid C.length (C.map (·.text)) 0 hv).1
  refine ⟨by rw [hupd store], by rw [hupd], ?_⟩
  intro x
  rw [hupd store, hupd]
  set D := (store.filter
      (fun r => ¬ r.meta.parent_id = some cid)).filter
        (fun r => r.id ≠ cid) with hD
  set D2 := ((upsertMany D V).filter
      (fun r => ¬ r.meta.parent_id = some cid)).filter
        (fun r => r.id ≠ cid) with hD2
  show x ∈ (upsertMany D V).map (·.id) ↔ x ∈ (upsertMany D2 V).map (·.id)
  rw [mem_ids_upsertMany, mem_ids_upsertMany]
  have hD2iff : x ∈ D2.map (·.id)
      ↔ (x ∈ D.map (·.id) ∧ x ∉ V.map (·.id)) := by
    constructor
    · intro hx
      obtain ⟨r, hr, hrx⟩ := List.mem_map.mp hx
      rw [hD2] at hr
      have hr1 := List.mem_filter.mp hr
      have hr2 := List.mem_filter.mp hr1.1
      have hp : ¬ r.meta.parent_id = some cid := by simpa using hr2.2
      have hrD : r ∈ D := by
        rcases mem_upsertMany D V hr2.1 with hv | hv
        · exact absurd (hVparent r hv) hp
        · exact hv
      refine ⟨hrx ▸ List.mem_map_of_mem (·.id) hrD, ?_⟩
      intro hxV
      exact hp (hVparent r (mem_upsertMany_of_id D V hr2.1 (hrx ▸ hxV)))
    · rintro ⟨hxD, hxV⟩
      obtain ⟨r, hr, hrx⟩ := List.mem_map.mp hxD
      have hr1 := List.mem_filter.mp (hD ▸ hr)
      have hr2 := List.mem_filter.mp hr1.1
      have hUp : r ∈ upsertMany D V :=
        mem_upsertMany_of_notin D V hr (fun hc => hxV (hrx ▸ hc))
      have hrD2 : r ∈ D2 := by
        rw [hD2]
        exact List.mem_filter.mpr ⟨List.mem_filter.mpr ⟨hUp, hr2.2⟩, hr1.2⟩
      exact hrx ▸ List.mem_map_of_mem (·.id) hrD2
  rw [hD2iff]
  tauto


theorem C8_witness :
    ¬(chunkContent defaultChunkConfig "hello".toList
        ((⟨none, none, []⟩ : CallerMeta).title.getD [])).isEmpty = true ∧
    (updateContent defaultChunkConfig (fun _ => []) [] "hello".toList
        ⟨none, none, []⟩ "kb_1".toList false).2 = true :=
  ⟨by decide,
   (C8_update_idempotence defaultChunkConfig (fun _ => []) []
      "hello".toList ⟨none, none, []⟩ "kb_1".toList (by decide)).1⟩

theorem noBreak_cons_cons (a b : Char) (r : Str) :
    noBreak (a :: b :: r) = (okPair a b && noBreak (b :: r)) := rfl

theorem noBreak_tail {a : Char} {l : Str} (h : noBreak (a :: l) = true) :
    noBreak l = true := by
  cases l with
  | nil => rfl
  | cons b r =>
    rw [noBreak_cons_cons, Bool.and_eq_true] at h
    exact h.2

theorem noBreak_of_append_right {s t : Str} (h : noBreak (s ++ t) = true) :
    noBreak t = true := by
  induction s with
  | nil => exact h
  | cons a s ih => exact ih (noBreak_tail h)

theorem noBreak_of_append_left {s t : Str} (h : noBreak (s ++ t) = true) :
    noBreak s = true := by
  induction s with
  | nil => rfl
  | cons a s ih =>
    cases s with
    | nil => rfl
    | cons b s' =>
      rw [List.cons_append, List.cons_append, noBreak_cons_cons,
        Bool.and_eq_true] at h
      rw [noBreak_cons_cons, Bool.and_eq_true]
      exact ⟨h.1, ih (by simpa using h.2)⟩

theorem noBreak_of_prefix {s t : Str} (hp : s <+: t)
    (h : noBreak t = true) : noBreak s = true := by
  obtain ⟨u, hu⟩ := hp
  exact noBreak_of_append_left (hu ▸ h)

theorem noBreak_of_suffix {s t : Str} (hp : s <:+ t)
    (h : noBreak t = true) : noBreak s = true := by
  obtain ⟨u, hu⟩ := hp
  exact noBreak_of_append_right (hu ▸ h)

theorem strip_prefix_dropWhile (s : Str) :
    strip s <+: s.dropWhile pyWs := by
  obtain ⟨u, hu⟩ :=
    List.dropWhile_suffix (l := (s.dropWhile pyWs).reverse) (p := pyWs)
  refine ⟨u.reverse, ?_⟩
  have := congrArg List.reverse hu
  simpa [strip] using this

theorem strip_length_le (s : Str) : (strip s).length ≤ s.length :=
  Nat.le_trans (strip_prefix_dropWhile s).length_le
    (List.dropWhile_suffix _).length_le

theorem noBreak_strip {s : Str} (h : noBreak s = true) :
    noBreak (strip s) = true :=
  noBreak_of_prefix (strip_prefix_dropWhile s)
    (noBreak_of_suffix (List.dropWhile_suffix _) h)

theorem noBreak_snoc (l : Str) (c : Char) :
    noBreak (l ++ [c])
      = (noBreak l && (match l.getLast? with
          | some a => okPair a c
          | none => true)) := by
  induction l with
  | nil => rfl
  | cons a l ih =>
    cases l with
    | nil => simp [noBreak_cons_cons, noBreak]
    | cons b l' =>
      rw [List.cons_append, List.cons_append, noBreak_cons_cons,
        ← List.cons_append, ih, noBreak_cons_cons, List.getLast?_cons_cons,
        Bool.and_assoc]

theorem noBreak_rev_cons (acc : Str) (c : Char)
    (h1 : noBreak acc.reverse = true)
    (h2 : ∀ a, acc.head? = some a → okPair a c = true) :
    noBreak ((c :: acc).reverse) = true := by
  rw [List.reverse_cons, noBreak_snoc, h1, Bool.true_and]
  rw [List.getLast?_reverse]
  cases hh : acc.head? with
  | none => rfl
  | some a => exact h2 a hh

theorem splitSentGo_noBreak (s : Str) :
    ∀ (acc : Str) (inDelim : Bool), noBreak acc.reverse = true →
      ∀ f ∈ splitSentGo s acc inDelim, noBreak f = true := by
  induction s with
  | nil =>
    intro acc inDelim h f hf
    simp only [splitSentGo, List.mem_singleton] at hf
    exact hf ▸ h
  | cons c rest ih =>
    intro acc inDelim h f hf
    cases inDelim with
    | true =>
      rw [show splitSentGo (c :: rest) acc true
          = (if pyWs c then splitSentGo rest acc true
             else splitSentGo rest [c] false) from rfl] at hf
      by_cases hc : pyWs c = true
      · rw [if_pos hc] at hf
        exact ih acc true h f hf
      · rw [if_neg (by simpa using hc)] at hf
        exact ih [c] false (by rfl) f hf
    | false =>
      rw [show splitSentGo (c :: rest) acc false
          = (if pyWs c ∧ (acc.head?.elim false isPunct) then
               acc.reverse :: splitSentGo rest [] true
             else splitSentGo rest (c :: acc) false) from rfl] at hf
      by_cases hcond : pyWs c ∧ (acc.head?.elim false isPunct)
      · rw [if_pos hcond] at hf
        rcases List.mem_cons.mp hf with hf | hf
        · exact hf ▸ h
        · exact ih [] true rfl f hf
      · rw [if_neg hcond] at hf
        refine ih (c :: acc) false (noBreak_rev_cons acc c h ?_) f hf
        intro a ha
        by_contra hbad
        have hband : (isPunct a && pyWs c) = true := by
          revert hbad
          rw [okPair]
          cases isPunct a && pyWs c <;> simp
        rw [Bool.and_eq_true] at hband
        exact hcond ⟨hband.2, by rw [ha]; exact hband.1⟩

theorem splitSent_noBreak (para : Str) :
    ∀ f ∈ splitSent para, noBreak f = true :=
  splitSentGo_noBreak para [] false rfl

theorem inv_flush {cfg : ChunkConfig} {st : List Str × Str}
    (h1 : ∀ x ∈ st.1, GoodChunk cfg x) (h2 : GoodChunk cfg st.2) :
    ∀ x ∈ st.1 ++ [st.2], GoodChunk cfg x := by
  intro x hx
  rcases List.mem_append.mp hx with hx | hx
  · exact h1 x hx
  · rw [List.mem_singleton] at hx
    exact hx ▸ h2

theorem sentStep_inv (cfg : ChunkConfig) (st : List Str × Str)
    (sentence : Str) (h1 : ∀ x ∈ st.1, GoodChunk cfg x)
    (h2 : GoodChunk cfg st.2) (hs : noBreak sentence = true) :
    (∀ x ∈ (sentStep cfg st sentence).1, GoodChunk cfg x)
      ∧ GoodChunk cfg (sentStep cfg st sentence).2 := by
  rw [sentStep]
  split_ifs with hfit hemp hemp2
  · exact ⟨h1, .inl (by
      simp only [List.length_append, List.length_nil, List.length_cons]
      omega)⟩
  · exact ⟨h1, .inl (by
      simp only [List.length_append, List.length_nil, List.length_cons]
      omega)⟩
  · exact ⟨h1, .inr hs⟩
  · exact ⟨inv_flush h1 h2, .inr hs⟩

theorem sentFold_inv (cfg : ChunkConfig) (l : List Str)
    (hl : ∀ f ∈ l, noBreak f = true) :
    ∀ st : List Str × Str, (∀ x ∈ st.1, GoodChunk cfg x) →
      GoodChunk cfg st.2 →
      (∀ x ∈ (l.foldl (sentStep cfg) st).1, GoodChunk cfg x)
        ∧ GoodChunk cfg (l.foldl (sentStep cfg) st).2 := by
  induction l with
  | nil => exact fun st h1 h2 => ⟨h1, h2⟩
  | cons f l ih =>
    intro st h1 h2
    rw [List.foldl_cons]
    obtain ⟨g1, g2⟩ := sentStep_inv cfg st f h1 h2
      (hl f (List.mem_cons_self _ _))
    exact ih (fun x hx => hl x (List.mem_cons_of_mem _ hx)) _ g1 g2

theorem paraStep_inv (cfg : ChunkConfig) (st : List Str × Str) (para0 : Str)
    (h1 : ∀ x ∈ st.1, GoodChunk cfg x) (h2 : GoodChunk cfg st.2) :
    (∀ x ∈ (paraStep cfg st para0).1, GoodChunk cfg x)
      ∧ GoodChunk cfg (paraStep cfg st para0).2 := by
  rw [paraStep]
  split_ifs with he hbig hse1 hfit hse2 hse3
  · exact ⟨h1, h2⟩
  · exact sentFold_inv cfg _ (splitSent_noBreak _) st h1 h2
  · exact sentFold_inv cfg _ (splitSent_noBreak _) _ (inv_flush h1 h2)
      (.inl (by simp))
  · exact ⟨h1, .inl (by
      simp only [List.length_append, List.length_nil, List.length_cons]
      omega)⟩
  · exact ⟨h1, .inl (by
      simp only [List.length_append, List.length_nil, List.length_cons]
      omega)⟩
  · exact ⟨h1, .inl (by
      show (strip para0).length ≤ cfg.chunk_size + 1
      omega)⟩
  · exact ⟨inv_flush h1 h2, .inl (by
      show (strip para0).length ≤ cfg.chunk_size + 1
      omega)⟩

theorem splitByParagraphs_good (cfg : ChunkConfig) (content : Str) :
    ∀ x ∈ splitByParagraphs cfg content, GoodChunk cfg x := by
  have key : ∀ (l : List Str) (st : List Str × Str),
      (∀ x ∈ st.1, GoodChunk cfg x) → GoodChunk cfg st.2 →
      (∀ x ∈ (l.foldl (paraStep cfg) st).1, GoodChunk cfg x)
        ∧ GoodChunk cfg (l.foldl (paraStep cfg) st).2 := by
    intro l
    induction l with
    | nil => exact fun st h1 h2 => ⟨h1, h2⟩
    | cons p l ih =>
      intro st h1 h2
      rw [List.foldl_cons]
      obtain ⟨g1, g2⟩ := paraStep_inv cfg st p h1 h2
      exact ih _ g1 g2
  rw [splitByParagraphs]
  obtain ⟨g1, g2⟩ := key (splitParas content) ([], [])
    (by intro x hx; cases hx) (.inl (by simp))
  intro x hx
  by_cases hse :
      ((splitParas content).foldl (paraStep cfg) ([], [])).2.isEmpty <;>
    simp only [hse, if_true, if_false] at hx
  · exact g1 x hx
  · rcases List.mem_append.mp hx with hx | hx
    · exact g1 x hx
    · rw [List.mem_singleton] at hx
      exact hx ▸ g2

theorem getD_mem_of_lt {l : List Str} {j : Nat} (hj : j < l.length) :
    l.getD j [] ∈ l := by
  induction l generalizing j with
  | nil => simp at hj
  | cons a t ih =>
    cases j with
    | zero => exact List.mem_cons_self _ _
    | succ j =>
      exact List.mem_cons_of_mem _ (ih (by simpa using hj))

/-- C3 (amended): every chunk text is within ONE character of the
configured chunk_size (the sentence-accumulation guard does not count
the joining space, so two sentences can total chunk_size + 1), except a
single semantic unit the sentence splitter cannot split further, and
except the first chunk when a non-empty title is prepended, which may
additionally exceed by the title length plus two (and whose body after
the injected title obeys the same rule). -/
theorem C3_amended (cfg : ChunkConfig) (content title : Str) (c : Chunk)
    (hc : c ∈ chunkContent cfg content title) :
    c.text.length ≤ cfg.chunk_size + 1
    ∨ noBreak c.text = true
    ∨ (c.index = 0 ∧ title.isEmpty = false
        ∧ (c.text.length ≤ title.length + 2 + (cfg.chunk_size + 1)
           ∨ noBreak (c.text.drop (title.length + 2)) = true)) := by
  rw [chunkContent] at hc
  by_cases he : (strip content).isEmpty = true
  · rw [if_pos he] at hc
    cases hc
  · rw [if_neg he] at hc
    by_cases hlen : (strip content).length ≤ cfg.chunk_size
    · rw [if_pos hlen, List.mem_singleton] at hc
      subst hc
      exact .inl (Nat.le_succ_of_le hlen)
    · rw [if_neg hlen] at hc
      obtain ⟨j, hj, hidx, htot, htext⟩ := mem_withTitle hc
      have hgood : GoodChunk cfg
          (strip ((splitByParagraphs cfg (strip content)).getD j [])) := by
        rcases splitByParagraphs_good cfg (strip content) _
            (getD_mem_of_lt hj) with hg | hg
        · exact .inl (Nat.le_trans (strip_length_le _) hg)
        · exact .inr (noBreak_strip hg)
      by_cases hcond : c.index = 0 ∧ ¬ title.isEmpty = true
      · rw [if_pos hcond] at htext
        refine .inr (.inr ⟨hcond.1, Bool.eq_false_iff.mpr hcond.2, ?_⟩)
        have hdrop : c.text.drop (title.length + 2)
            = strip ((splitByParagraphs cfg (strip content)).getD j []) := by
          rw [htext,
            show title ++ '\n' :: '\n'
                :: strip ((splitByParagraphs cfg (strip content)).getD j [])
              = (title ++ ['\n', '\n'])
                ++ strip ((splitByParagraphs cfg (strip content)).getD j [])
              from by simp,
            show title.length + 2 = (title ++ ['\n', '\n']).length
              from by simp,
            List.drop_left]
        rcases hgood with hg | hg
        · refine .inl ?_
          rw [htext]
          simp only [List.length_append, List.length_cons]
          omega
        · exact .inr (hdrop ▸ hg)
      · rw [if_neg hcond] at htext
        rcases hgood with hg | hg
        · exact .inl (htext ▸ hg)
        · exact .inr (.inl (htext ▸ hg))

/-- C3 counterexample: with chunk_size 10, "aaaa. bbbbb" (11 characters)
is produced as one chunk of length 11 > 10 even though it is NOT a
single unsplittable unit — the sentence splitter cuts it into two
sentences; the accumulation guard `len(current) + len(sentence) <=
chunk_size` does not count the joining space. -/
theorem C3_counterexample :
    chunkContent smallChunkConfig "aaaa. bbbbb".toList []
        = [⟨"aaaa. bbbbb".toList, 0, 1⟩]
    ∧ smallChunkConfig.chunk_size < "aaaa. bbbbb".toList.length
    ∧ noBreak "aaaa. bbbbb".toList = false
    ∧ splitSent "aaaa. bbbbb".toList = ["aaaa.".toList, "bbbbb".toList] := by
  refine ⟨by decide, by decide, by decide, by decide⟩

theorem C3_witness :
    (⟨"hello".toList, 0, 1⟩ : Chunk)
        ∈ chunkContent defaultChunkConfig "hello".toList [] ∧
    ((⟨"hello".toList, 0, 1⟩ : Chunk).text.length
        ≤ defaultChunkConfig.chunk_size + 1
      ∨ noBreak (⟨"hello".toList, 0, 1⟩ : Chunk).text = true
      ∨ ((⟨"hello".toList, 0, 1⟩ : Chunk).index = 0
          ∧ ([] : Str).isEmpty = false
          ∧ ((⟨"hello".toList, 0, 1⟩ : Chunk).text.length
                ≤ ([] : Str).length + 2 + (defaultChunkConfig.chunk_size + 1)
             ∨ noBreak ((⟨"hello".toList, 0, 1⟩ : Chunk).text.drop
                  (([] : Str).length + 2)) = true))) :=
  ⟨by decide,
   C3_amended defaultChunkConfig "hello".toList [] ⟨"hello".toList, 0, 1⟩
     (by decide)⟩

/-- C2: for a successful vector query, `retrieve_context` keeps exactly
the matches with score >= threshold, in provider order, reports the
survivor count and the mean surviving score rounded to 3 decimal
places, and returns an empty string / empty bundle when no match
survives; on scores [0.9, 0.75, 0.5, 0.3] with threshold 0.7 exactly
the first two survive with mean 0.825. -/
theorem C2_threshold_filtering (emb : List ℚ) (results : List PineMatch)
    (thr : ℚ) :
    (retrieveContext (.ok emb) (fun _ => .ok results) thr true
      = if (results.filter (fun m => thr ≤ m.score)).isEmpty
        then .bundle ⟨[], [], 0, 0⟩
        else
          .bundle
            ⟨List.intercalate contextSep
                (((results.filter (fun m => thr ≤ m.score)).map toRR).map
                  formatContext),
             ((results.filter (fun m => thr ≤ m.score)).map toRR).map mkSource,
             (results.filter (fun m => thr ≤ m.score)).length,
             pyRound3
               (((results.filter (fun m => thr ≤ m.score)).map (·.score)).sum
                 / (results.filter (fun m => thr ≤ m.score)).length)⟩) ∧
    (retrieveContext (.ok emb) (fun _ => .ok results) thr false
      = if (results.filter (fun m => thr ≤ m.score)).isEmpty
        then .str []
        else
          .str (List.intercalate contextSep
            (((results.filter (fun m => thr ≤ m.score)).map toRR).map
              formatContext))) ∧
    retrieveContext (.ok [])
        (fun _ => .ok
          [⟨"m1".toList, 9/10, ⟨none, none, some "c1".toList⟩⟩,
           ⟨"m2".toList, 3/4, ⟨none, none, some "c2".toList⟩⟩,
           ⟨"m3".toList, 1/2, ⟨none, none, some "c3".toList⟩⟩,
           ⟨"m4".toList, 3/10, ⟨none, none, some "c4".toList⟩⟩])
        (7/10) true
      = .bundle ⟨"c1\n\n---\n\nc2".toList,
          [⟨"Unknown".toList, [], 9/10, "m1".toList⟩,
           ⟨"Unknown".toList, [], 3/4, "m2".toList⟩], 2, 33/40⟩ := by
  refine ⟨?_, ?_, ?eg⟩
  case eg =>
    norm_num [retrieveContext, toRR, mkSource, formatContext, contextSep,
      pyRound3, List.filter, emptyRetOut]
    decide
  all_goals
    by_cases h : (results.filter (fun m => thr ≤ m.score)).isEmpty = true
  · simp [retrieveContext, eq_nil_of_isEmpty h, emptyRetOut]
  · simp only [retrieveContext, isEmpty_map_eq, h, if_neg h, if_false,
      List.map_map, Function.comp_def, toRR, List.length_map]
    simp
  · simp [retrieveContext, eq_nil_of_isEmpty h, emptyRetOut]
  · simp only [retrieveContext, isEmpty_map_eq, h, if_neg h, if_false,
      List.map_map, Function.comp_def, toRR, List.length_map]
    simp

/-- C4: for every query, if the embedding call or the vector-index query
raises a provider error, `retrieve_context` catches it and returns an
empty result (empty string, or a bundle with zero matches and 0.0
average score when sources are requested) instead of propagating. -/
theorem C4_retriever_error_degradation
    (query : List ℚ → Except Unit (List PineMatch)) (emb : List ℚ)
    (thr : ℚ) (inc : Bool) :
    retrieveContext (.error ()) query thr inc
        = (if inc then .bundle ⟨[], [], 0, 0⟩ else .str []) ∧
    retrieveContext (.ok emb) (fun _ => .error ()) thr inc
        = (if inc then .bundle ⟨[], [], 0, 0⟩ else .str []) := by
  constructor <;> rfl

/-- C5: `classify` case-folds the message, counts keyword-substring hits
per non-general topic, returns `general` exactly when the maximum count
is zero, and otherwise the first topic in the priority order
troubleshooting > product-recommendation > business-mentorship >
domain-education whose count equals the maximum (`specClassify` is that
algorithm transcribed from the spec); in particular
"I have a hair problem" resolves to troubleshooting and "" to general. -/
theorem C5_classifier :
    (∀ message : Str,
        detectConversationContext message = specClassify message) ∧
    detectConversationContext "I have a hair problem".toList
        = .troubleshooting ∧
    detectConversationContext "".toList = .general := by
  refine ⟨?_, by decide, by decide⟩
  intro message
  simp only [detectConversationContext, specClassify, keywordsOf,
    List.map_cons, List.map_nil, List.foldr_cons, List.foldr_nil,
    List.find?, Nat.max_zero, Nat.max_assoc]
  generalize keywordScore (List.map Char.toLower message) hairKeywords = a
  generalize keywordScore (List.map Char.toLower message) businessKeywords = b
  generalize keywordScore (List.map Char.toLower message) productKeywords = c
  generalize keywordScore (List.map Char.toLower message) troubleshootingKeywords = d
  by_cases hz : a ⊔ (b ⊔ (c ⊔ d)) = 0
  · simp only [if_pos hz]
  · simp only [if_neg hz]
    by_cases h1 : d = a ⊔ (b ⊔ (c ⊔ d))
    · simp only [if_pos h1, beq_iff_eq.mpr h1]
    · simp only [if_neg h1, beq_eq_false_iff_ne.mpr h1]
      by_cases h2 : c = a ⊔ (b ⊔ (c ⊔ d))
      · simp only [if_pos h2, beq_iff_eq.mpr h2]
      · simp only [if_neg h2, beq_eq_false_iff_ne.mpr h2]
        by_cases h3 : b = a ⊔ (b ⊔ (c ⊔ d))
        · simp only [if_pos h3, beq_iff_eq.mpr h3]
        · simp only [if_neg h3, beq_eq_false_iff_ne.mpr h3]
          by_cases h4 : a = a ⊔ (b ⊔ (c ⊔ d))
          · simp only [if_pos h4, beq_iff_eq.mpr h4]
          · exfalso; omega

/-- C7: indexing content that strips to nothing (and hence chunks to
zero segments) with `chunk=true` returns `(False, [])`, leaves the store
untouched, and makes no embedding or vector-index gateway call. -/
theorem C7_empty_content_indexing (cfg : ChunkConfig) (embf : Str → List ℚ)
    (store : List VRecord) (content : Str) (meta : CallerMeta)
    (contentId : Str) (h : strip content = []) :
    indexContent cfg embf store content meta contentId true
      = ⟨store, false, [], []⟩ := by
  simp [indexContent, indexChunked, chunkContent, h]

theorem C7_witness :
    strip "  \n ".toList = [] ∧
    indexContent defaultChunkConfig (fun _ => []) [] "  \n ".toList
        ⟨none, none, []⟩ "kb_1".toList true = ⟨[], false, [], []⟩ :=
  ⟨by decide, C7_empty_content_indexing _ _ _ _ _ _ (by decide)⟩

/-- C9: `update_content` returns exactly the success flag of the
re-index step — the delete result is discarded, so the flag is
independent of whether the delete failed, and a concrete run shows
update returning `True` while a stale record survives a failed delete. -/
theorem C9_update_ignores_delete_failure :
    (∀ (cfg : ChunkConfig) (embf : Str → List ℚ) (store : List VRecord)
        (content : Str) (meta : CallerMeta) (contentId : Str),
      (updateContent cfg embf store content meta contentId true).2
        = (updateContent cfg embf store content meta contentId false).2) ∧
    (let stale : VRecord :=
      ⟨"kb_1_chunk_1".toList, [], ⟨⟨none, none, []⟩, "old".toList, some 1,
        some 2, some "kb_1".toList⟩⟩
     let u := updateContent defaultChunkConfig (fun _ => []) [stale]
        "hello".toList ⟨none, none, []⟩ "kb_1".toList true
     u.2 = true ∧ stale ∈ u.1) := by
  refine ⟨?_, by decide, by decide⟩
  intro cfg embf store content meta contentId
  by_cases h : (chunkContent cfg content (meta.title.getD [])).isEmpty <;>
    simp [updateContent, indexContent, indexChunked, deleteContent, h]

/-- C10: the message list built for the completion provider is exactly
one persona system message, then a context-injection system turn iff the
context string is non-empty, then the valid entries of the last 10
history entries (invalid ones silently dropped), then the current user
message; in particular it begins with the persona system message and
ends with the user message. -/
theorem C10_build_messages (sysPrompt : CC → Str) (ctxInj : Str → Str → Str)
    (userMessage context : Str) (history : Option (List HEntry)) (ct : CC) :
    buildMessages sysPrompt ctxInj userMessage context history ct
      = ⟨"system".toList, sysPrompt ct⟩
        :: ((if context.isEmpty then []
             else [⟨"system".toList, ctxInj context userMessage⟩])
          ++ ((lastN MAX_HISTORY (history.getD [])).filter isValidMessage).map toMsg
          ++ [⟨"user".toList, userMessage⟩]) ∧
    (buildMessages sysPrompt ctxInj userMessage context history ct).head?
      = some ⟨"system".toList, sysPrompt ct⟩ ∧
    (buildMessages sysPrompt ctxInj userMessage context history ct).getLast?
      = some ⟨"user".toList, userMessage⟩ := by
  refine ⟨?_, ?_, ?_⟩ <;>
    cases history <;>
      by_cases h : context.isEmpty <;>
        simp [buildMessages, h, lastN, getLast_cons_concat]

end TayAI
